import Mathlib

/-!
Shallow embedding of the decision logic of the churn-mlops repository
(`src/churn_mlops`), together with theorems checking the natural-language
specification against it.

Conventions used throughout:
* python floats are idealised as rationals (`ℚ`); `np.log` is a parameter
  `log : ℚ → ℚ` of the drift functions (properties of the real logarithm
  that a proof needs are taken as explicit hypotheses);
* calendar dates are day numbers (`Int`); an unparseable date is `none`;
* tabular data is a list of rows (order preserved, as in pandas);
* python's stable sorts (`sorted`, guaranteed stable also with
  `reverse=True`) are `List.mergeSort`.
-/

namespace ChurnMlops

open List

namespace Drift

/-- Scalar `np.clip(x, lo, hi)`. -/
def npClip (x lo hi : ℚ) : ℚ := min (max x lo) hi

/-- Evenly spaced points `np.linspace(0, 1, k)`. -/
def linspace01 (k : ℕ) : List ℚ :=
  (List.range k).map (fun j => (j : ℚ) / ((k : ℚ) - 1))

/-- Ascending sort of a list of rationals (used for quantiles and `np.unique`).
Insertion sort is used as the model of sorting throughout this file because it
is stable (as python's and numpy's stable sorts are) and kernel-computable. -/
def sortAsc (xs : List ℚ) : List ℚ := List.insertionSort (· ≤ ·) xs

/-- Quantile `np.quantile(xs, q)` with the default linear interpolation method. -/
def npQuantile (xs : List ℚ) (q : ℚ) : ℚ :=
  let s := sortAsc xs
  let h := q * ((s.length : ℚ) - 1)
  let i := Rat.floor h
  let lo := s.getD i.toNat 0
  let hi := s.getD (i.toNat + 1) lo
  lo + (h - (i : ℚ)) * (hi - lo)

/-- Sorted deduplicated values, `np.unique`. -/
def npUnique (xs : List ℚ) : List ℚ := (sortAsc xs).dedup

/-- Histogram counts `np.histogram(xs, bins=edges)`: with `k+1` edges there are
`k` bins, each half-open `[edges[i], edges[i+1])` except the last, which is
closed; values outside the edge range are not counted. -/
def histCounts (xs : List ℚ) (edges : List ℚ) : List ℕ :=
  let k := edges.length - 1
  (List.range k).map (fun i =>
    (xs.filter (fun v =>
      decide (edges.getD i 0 ≤ v) &&
      (if i + 1 = k then decide (v ≤ edges.getD (i + 1) 0)
       else decide (v < edges.getD (i + 1) 0)))).length)

/-- The `_bucket_counts` closure inside `_psi` (`monitoring/drift.py`):
histogram counts normalised by `max(counts.sum(), 1)` and clipped into
`[1e-6, 1]`. -/
def bucketCounts (xs : List ℚ) (edges : List ℚ) : List ℚ :=
  let counts := histCounts xs edges
  counts.map (fun c => npClip ((c : ℚ) / max ((counts.sum : ℚ)) 1) (1 / 1000000) 1)

/-- `_psi(expected, actual, buckets)` from `monitoring/drift.py`, parameterised
by the logarithm function (the source uses `np.log`). -/
def psi (log : ℚ → ℚ) (expected actual : List ℚ) (buckets : ℕ) : ℚ :=
  if expected.length = 0 ∨ actual.length = 0 then 0
  else
    let edges := npUnique ((linspace01 (buckets + 1)).map (npQuantile expected))
    if edges.length < 3 then 0
    else
      let ePct := bucketCounts expected edges
      let aPct := bucketCounts actual edges
      (List.zipWith (fun a e => (a - e) * log (a / e)) aPct ePct).sum

/-- The `DriftReport` dataclass of `monitoring/drift.py`. -/
structure DriftReport where
  psiByFeature : List (String × ℚ)
  overallMaxPsi : ℚ
  status : String
deriving Repr, DecidableEq

/-- A CSV table as a list of named columns, each a list of cell values
(`none` is a missing value). -/
abbrev Table := List (String × List (Option ℚ))

/-- Column lookup (`col in df.columns` / `df[col]`). -/
def getColumn (t : Table) (c : String) : Option (List (Option ℚ)) :=
  (t.find? (fun p => p.1 == c)).map (fun p => p.2)

/-- Python `max(values, default=0.0)`. -/
def listMaxD (l : List ℚ) : ℚ :=
  match l with
  | [] => 0
  | x :: xs => xs.foldl max x

/-- `compute_drift` from `monitoring/drift.py`: per shared feature column, drop
missing values from each side and take the PSI; overall score is the maximum
(default 0); status is FAIL/WARN/OK by thresholds. -/
def computeDrift (log : ℚ → ℚ) (base cur : Table) (featureCols : List String)
    (warnPsi failPsi : ℚ) : DriftReport :=
  let psiBy := featureCols.filterMap (fun col =>
    match getColumn base col, getColumn cur col with
    | some bc, some cc => some (col, psi log (bc.filterMap id) (cc.filterMap id) 10)
    | _, _ => none)
  let maxPsi := listMaxD (psiBy.map (fun p => p.2))
  let status := if maxPsi ≥ failPsi then "FAIL" else if maxPsi ≥ warnPsi then "WARN" else "OK"
  ⟨psiBy, maxPsi, status⟩

theorem zipWith_self_sum_zero (f : ℚ → ℚ → ℚ) (h : ∀ a, f a a = 0) :
    ∀ l : List ℚ, (List.zipWith f l l).sum = 0
  | [] => rfl
  | x :: xs => by
    simp only [List.zipWith_cons_cons, List.sum_cons, h x,
      zipWith_self_sum_zero f h xs, zero_add]

theorem psi_self (log : ℚ → ℚ) (e : List ℚ) (b : ℕ) : psi log e e b = 0 := by
  simp only [psi]
  split
  · rfl
  · split
    · rfl
    · exact zipWith_self_sum_zero _ (fun a => by simp) _

theorem foldl_max_zero :
    ∀ (l : List ℚ) (acc : ℚ), acc = 0 → (∀ y ∈ l, y = 0) → l.foldl max acc = 0
  | [], acc, hacc, _ => hacc
  | y :: ys, acc, hacc, h => by
    simp only [List.foldl_cons]
    exact foldl_max_zero ys (max acc y)
      (by simp [hacc, h y (List.mem_cons_self y ys)])
      (fun z hz => h z (List.mem_cons_of_mem y hz))

theorem listMaxD_eq_zero {l : List ℚ} (h : ∀ x ∈ l, x = 0) : listMaxD l = 0 := by
  match l with
  | [] => rfl
  | x :: xs =>
    exact foldl_max_zero xs x (h x (List.mem_cons_self x xs))
      (fun z hz => h z (List.mem_cons_of_mem x hz))

/-- C4: with baseline and current both equal to the same table `X`,
`compute_drift` yields PSI exactly 0 for every evaluated feature, an overall
maximum PSI of 0, and status `OK` (at the default thresholds 0.1 / 0.25). -/
theorem compute_drift_self_is_ok (log : ℚ → ℚ) (X : Table) (cols : List String) :
    (∀ p ∈ (computeDrift log X X cols (1/10) (1/4)).psiByFeature, p.2 = 0) ∧
    (computeDrift log X X cols (1/10) (1/4)).overallMaxPsi = 0 ∧
    (computeDrift log X X cols (1/10) (1/4)).status = "OK" := by
  have hall : ∀ p ∈ (computeDrift log X X cols (1/10) (1/4)).psiByFeature, p.2 = 0 := by
    intro p hp
    simp only [computeDrift, List.mem_filterMap] at hp
    obtain ⟨col, _, hcol⟩ := hp
    rcases hb : getColumn X col with _ | bc
    · rw [hb] at hcol; simp at hcol
    · rw [hb] at hcol
      simp only [Option.some.injEq] at hcol
      rw [← hcol]
      exact psi_self log _ 10
  refine ⟨hall, ?_, ?_⟩
  · apply listMaxD_eq_zero
    intro x hx
    simp only [List.mem_map] at hx
    obtain ⟨p, hp, hpx⟩ := hx
    rw [← hpx]
    exact hall p hp
  · have hmax : listMaxD (((computeDrift log X X cols (1/10) (1/4)).psiByFeature).map
        (fun p => p.2)) = 0 := by
      apply listMaxD_eq_zero
      intro x hx
      simp only [List.mem_map] at hx
      obtain ⟨p, hp, hpx⟩ := hx
      rw [← hpx]
      exact hall p hp
    simp only [computeDrift] at hmax ⊢
    rw [hmax]
    norm_num

/-- C9: the two drift-computation degeneracies are absorbed as PSI = 0: an
empty baseline or current array, and fewer than 3 distinct quantile edges
surviving deduplication of the baseline decile edges. -/
theorem psi_degenerate_zero (log : ℚ → ℚ) (e a : List ℚ) (b : ℕ) :
    ((e.length = 0 ∨ a.length = 0) → psi log e a b = 0) ∧
    ((npUnique ((linspace01 (b + 1)).map (npQuantile e))).length < 3 →
      psi log e a b = 0) := by
  constructor
  · intro h
    simp only [psi, if_pos h]
  · intro h
    simp only [psi]
    split
    · rfl
    · rfl

theorem psi_degenerate_zero_witness :
    psi (fun x => x - 1) [] [1] 10 = 0 ∧
    psi (fun x => x - 1) [5] [1, 2] 10 = 0 :=
  ⟨(psi_degenerate_zero (fun x => x - 1) [] [1] 10).1 (Or.inl rfl),
   (psi_degenerate_zero (fun x => x - 1) [5] [1, 2] 10).2 (by
     norm_num [npUnique, sortAsc, npQuantile, linspace01, List.range_succ,
       Rat.floor_def'])⟩

theorem of_mem_zipWith {f : ℚ → ℚ → ℚ} :
    ∀ {l₁ l₂ : List ℚ} {x : ℚ}, x ∈ List.zipWith f l₁ l₂ →
      ∃ p ∈ l₁, ∃ q ∈ l₂, x = f p q := by
  intro l₁
  induction l₁ with
  | nil => intro l₂ x hx; simp at hx
  | cons p ps ih =>
    intro l₂ x hx
    cases l₂ with
    | nil => simp at hx
    | cons q qs =>
      rcases List.mem_cons.mp hx with h | h
      · exact ⟨p, List.mem_cons_self _ _, q, List.mem_cons_self _ _, h⟩
      · obtain ⟨p1, hp1, q1, hq1, hx1⟩ := ih h
        exact ⟨p1, List.mem_cons_of_mem _ hp1, q1, List.mem_cons_of_mem _ hq1, hx1⟩

theorem mem_bucketCounts_bounds {x : ℚ} {xs edges : List ℚ}
    (hx : x ∈ bucketCounts xs edges) : 1 / 1000000 ≤ x ∧ x ≤ 1 := by
  simp only [bucketCounts, List.mem_map] at hx
  obtain ⟨c, _, rfl⟩ := hx
  exact ⟨le_min (le_max_right _ _) (by norm_num), min_le_right _ _⟩

theorem psi_term_nonneg (log : ℚ → ℚ)
    (hmono : ∀ x y : ℚ, 0 < x → x < y → log x < log y) (h1 : log 1 = 0)
    {a e : ℚ} (ha : 0 < a) (he : 0 < e) : 0 ≤ (a - e) * log (a / e) := by
  rcases lt_trichotomy a e with h | h | h
  · have hq : a / e < 1 := (div_lt_one he).mpr h
    have hqpos : 0 < a / e := div_pos ha he
    have hl : log (a / e) < 0 := h1 ▸ hmono (a / e) 1 hqpos hq
    nlinarith
  · subst h
    simp [div_self (ne_of_gt ha), h1]
  · have hq : 1 < a / e := (one_lt_div he).mpr h
    have hl : 0 < log (a / e) := h1 ▸ hmono 1 (a / e) one_pos hq
    nlinarith

/-- C10: for every pair of non-empty numeric arrays, `_psi` returns a
non-negative value (for any strictly monotone logarithm with `log 1 = 0`,
as `np.log` is on the positive reals). -/
theorem psi_nonneg (log : ℚ → ℚ)
    (hmono : ∀ x y : ℚ, 0 < x → x < y → log x < log y) (h1 : log 1 = 0)
    (e a : List ℚ) (_he : e ≠ []) (_ha : a ≠ []) (b : ℕ) :
    0 ≤ psi log e a b := by
  simp only [psi]
  split
  · exact le_refl 0
  · split
    · exact le_refl 0
    · apply List.sum_nonneg
      intro x hx
      obtain ⟨p, hp, q, hq, rfl⟩ := of_mem_zipWith hx
      have hpb := mem_bucketCounts_bounds hp
      have hqb := mem_bucketCounts_bounds hq
      exact psi_term_nonneg log hmono h1
        (lt_of_lt_of_le (by norm_num) hpb.1) (lt_of_lt_of_le (by norm_num) hqb.1)

theorem psi_nonneg_witness : 0 ≤ psi (fun x => x - 1) [1] [2] 10 :=
  psi_nonneg (fun x => x - 1)
    (fun x y _ hxy => by dsimp only; linarith) (by norm_num)
    [1] [2] (by simp) (by simp) 10

end Drift

namespace Promote

/-- A JSON value as produced by `json.loads` (numbers idealised as `ℚ`). -/
inductive Json where
  | num (q : ℚ)
  | str (s : String)
  | jbool (b : Bool)
  | null
  | arr (elems : List Json)
  | obj (fields : List (String × Json))

/-- A parsed JSON object (dict), as read by `_read_metrics`. -/
abbrev Metrics := List (String × Json)

/-- Python `isinstance(v, (int, float))` on a `json.loads` value, returning
the numeric value (a python `bool` is an `int`, so it counts). -/
def numericValue : Json → Option ℚ
  | .num q => some q
  | .jbool b => some (if b then 1 else 0)
  | _ => none

/-- Dict lookup `m[key]` (with `key in m` as `isSome`). -/
def lookupKey (m : Metrics) (k : String) : Option Json :=
  (m.find? (fun p => p.1 == k)).map (fun p => p.2)

/-- The fixed metric-preference order of `_score_from_metrics`. -/
def scoreKeys : List String :=
  ["pr_auc", "average_precision", "roc_auc", "f1", "accuracy"]

def scoreFromMetricsAux : List String → Metrics → String × ℚ
  | [], _ => ("unknown", -1)
  | k :: ks, m =>
    match (lookupKey m k).bind numericValue with
    | some v => (k, v)
    | none => scoreFromMetricsAux ks m

/-- `_score_from_metrics` from `training/promote_model.py`: the first of the
five recognised keys present in the dict with a numeric value gives the
candidate's (metric name, score); otherwise `("unknown", -1.0)`. -/
def scoreFromMetrics (m : Metrics) : String × ℚ :=
  scoreFromMetricsAux scoreKeys m

/-- The `Candidate` dataclass of `training/promote_model.py` (paths modelled
by file names). -/
structure Candidate where
  modelPath : String
  metricsPath : String
  score : ℚ
  metricName : String
deriving Repr, DecidableEq

/-- Whether a file name matches the `*.json` glob. -/
def isJsonName (name : String) : Bool := ".json".data.isSuffixOf name.data

/-- `Path.stem` for a `*.json` file name: the name with the extension cut off. -/
def stemOf (name : String) : String := ⟨name.data.take (name.data.length - 5)⟩

/-- The body of the loop in `_find_candidates`: a metrics file yields a
candidate exactly when a same-stem `.joblib` exists in the models directory. -/
def candOf (modelFiles : List String) (f : String × Metrics) : Option Candidate :=
  if (stemOf f.1 ++ ".joblib") ∈ modelFiles then
    some { modelPath := stemOf f.1 ++ ".joblib", metricsPath := f.1,
           score := (scoreFromMetrics f.2).2, metricName := (scoreFromMetrics f.2).1 }
  else none

/-- Code-point-lexicographic file-name order, the order in which
`sorted(metrics_dir.glob("*.json"))` lists the scan. -/
def nameLe (a b : String × Metrics) : Prop := a.1.data ≤ b.1.data

instance : DecidableRel nameLe := fun a b =>
  inferInstanceAs (Decidable (a.1.data ≤ b.1.data))

instance : IsTotal (String × Metrics) nameLe :=
  ⟨fun a b => le_total a.1.data b.1.data⟩

instance : IsTrans (String × Metrics) nameLe :=
  ⟨fun _ _ _ h1 h2 => le_trans h1 h2⟩

/-- `_find_candidates(models_dir, metrics_dir)`: the `*.json` metrics files in
sorted order, each paired with its same-stem model artifact; files without a
matching artifact are skipped. Directories are modelled as file-name lists
(with parsed contents for the metrics files). -/
def findCandidates (metricsFiles : List (String × Metrics))
    (modelFiles : List String) : List Candidate :=
  (List.insertionSort nameLe (metricsFiles.filter (fun f => isJsonName f.1))).filterMap
    (candOf modelFiles)

/-- Comparison used by `sorted(candidates, key=lambda c: c.score, reverse=True)`. -/
def scoreGe (a b : Candidate) : Prop := b.score ≤ a.score

instance : DecidableRel scoreGe := fun a b =>
  inferInstanceAs (Decidable (b.score ≤ a.score))

instance : IsTotal Candidate scoreGe := ⟨fun a b => le_total b.score a.score⟩

instance : IsTrans Candidate scoreGe := ⟨fun _ _ _ h1 h2 => le_trans h2 h1⟩

/-- `sorted(candidates, key=lambda c: c.score, reverse=True)[0]`: python's
sort is stable (also with `reverse=True`), modelled as a stable insertion
sort by descending score; `none` exactly when there are no candidates, the
case in which `promote_model` raises before copying anything. -/
def bestCandidate (candidates : List Candidate) : Option Candidate :=
  (List.insertionSort scoreGe candidates).head?

/-- The production alias pair on disk (`production_latest.joblib`,
`production_latest.json`), each recorded as the name of the artifact it was
copied from (`none` = file absent). -/
structure ProdState where
  prodModel : Option String
  prodMetrics : Option String
deriving Repr, DecidableEq

/-- The error kind raised when no promotable artifact exists. -/
inductive PromoteError where
  | noPromotableArtifact
deriving Repr, DecidableEq

/-- The `meta` mapping returned by a successful `promote_model()`. -/
structure PromotionRecord where
  promotedFromModel : String
  promotedFromMetrics : String
  metricUsed : String
  score : ℚ
deriving Repr, DecidableEq

/-- `promote_model()` from `training/promote_model.py` over an explicit
filesystem state: scan for candidates; with none, fail without touching the
production alias; otherwise copy the best candidate's files over the alias
and return the promotion record. -/
def promoteModel (metricsFiles : List (String × Metrics)) (modelFiles : List String)
    (st : ProdState) : ProdState × Except PromoteError PromotionRecord :=
  match bestCandidate (findCandidates metricsFiles modelFiles) with
  | none => (st, .error .noPromotableArtifact)
  | some best =>
    ({ prodModel := some best.modelPath, prodMetrics := some best.metricsPath },
     .ok { promotedFromModel := best.modelPath, promotedFromMetrics := best.metricsPath,
           metricUsed := best.metricName, score := best.score })

/-- C5: when the directory scan yields zero matching metrics/artifact pairs,
`promote_model` fails with the no-promotable-artifact error and the
pre-existing production alias files are left unchanged. -/
theorem promote_model_no_candidates (metricsFiles : List (String × Metrics))
    (modelFiles : List String) (st : ProdState)
    (h : findCandidates metricsFiles modelFiles = []) :
    promoteModel metricsFiles modelFiles st = (st, .error .noPromotableArtifact) := by
  simp [promoteModel, bestCandidate, h]

theorem pair_get_sublist {α : Type} :
    ∀ (l : List α) (j k : ℕ) (hj : j < k) (hk : k < l.length),
      [l.get ⟨j, lt_trans hj hk⟩, l.get ⟨k, hk⟩] <+ l
  | a :: l, 0, k + 1, _, hk => by
    have hk' : k < l.length := Nat.lt_of_succ_lt_succ hk
    exact List.Sublist.cons₂ a
      (List.singleton_sublist.mpr (List.get_mem l k hk'))
  | a :: l, j + 1, k + 1, hj, hk => by
    have hk' : k < l.length := Nat.lt_of_succ_lt_succ hk
    simpa using List.Sublist.cons a
      (pair_get_sublist l j k (Nat.lt_of_succ_lt_succ hj) hk')

theorem candOf_metricsPath {ms : List String} {f : String × Metrics} {c : Candidate}
    (h : candOf ms f = some c) : c.metricsPath = f.1 := by
  unfold candOf at h
  split at h
  · cases h
    rfl
  · cases h

theorem map_metricsPath_sublist (ms : List String) :
    ∀ fl : List (String × Metrics),
      ((fl.filterMap (candOf ms)).map (fun c => c.metricsPath)) <+
        fl.map (fun f => f.1)
  | [] => .slnil
  | f :: fl => by
    rcases h : candOf ms f with _ | c
    · simp only [List.filterMap_cons, h, List.map_cons]
      exact .cons _ (map_metricsPath_sublist ms fl)
    · simp only [List.filterMap_cons, h, List.map_cons, candOf_metricsPath h]
      exact .cons₂ _ (map_metricsPath_sublist ms fl)

theorem findCandidates_nodup {mf : List (String × Metrics)} {ms : List String}
    (hnd : (mf.map (fun f => f.1)).Nodup) : (findCandidates mf ms).Nodup := by
  have h1 : ((mf.filter (fun f => isJsonName f.1)).map (fun f => f.1)).Nodup :=
    ((List.filter_sublist mf).map (fun f => f.1)).nodup hnd
  have hperm : List.insertionSort nameLe (mf.filter (fun f => isJsonName f.1)) ~
      mf.filter (fun f => isJsonName f.1) := List.perm_insertionSort nameLe _
  have h2 : ((List.insertionSort nameLe (mf.filter (fun f => isJsonName f.1))).map
      (fun f => f.1)).Nodup := ((hperm.map (fun f => f.1)).nodup_iff).mpr h1
  have h3 := (map_metricsPath_sublist ms _).nodup h2
  exact List.Nodup.of_map _ h3

theorem findCandidates_sorted_by_name (mf : List (String × Metrics)) (ms : List String) :
    (findCandidates mf ms).Pairwise
      (fun a c => a.metricsPath.data ≤ c.metricsPath.data) := by
  have hs : (List.insertionSort nameLe (mf.filter (fun f => isJsonName f.1))).Pairwise
      nameLe := List.sorted_insertionSort nameLe _
  unfold findCandidates
  rw [List.pairwise_filterMap]
  refine hs.imp ?_
  intro a b hab c hc c2 hc2
  rw [candOf_metricsPath (Option.mem_def.mp hc),
    candOf_metricsPath (Option.mem_def.mp hc2)]
  exact hab

/-- C2: the promoted candidate has the numerically highest score of all
metrics/artifact pairs found by the scan; among tied candidates the one
earliest in scan order wins, and the scan order is code-point-lexicographic
on the metrics file names (so ties go to the lexicographically-first metrics
file). Assumes the metrics directory listing has no duplicate file names. -/
theorem promote_picks_first_highest (metricsFiles : List (String × Metrics))
    (modelFiles : List String)
    (hnd : (metricsFiles.map (fun f => f.1)).Nodup)
    (b : Candidate)
    (hb : bestCandidate (findCandidates metricsFiles modelFiles) = some b) :
    (findCandidates metricsFiles modelFiles).Pairwise
      (fun a c => a.metricsPath.data ≤ c.metricsPath.data) ∧
    (∀ c ∈ findCandidates metricsFiles modelFiles, c.score ≤ b.score) ∧
    ∃ k, ∃ hk : k < (findCandidates metricsFiles modelFiles).length,
      (findCandidates metricsFiles modelFiles).get ⟨k, hk⟩ = b ∧
      ∀ j, ∀ hj : j < (findCandidates metricsFiles modelFiles).length, j < k →
        ((findCandidates metricsFiles modelFiles).get ⟨j, hj⟩).score < b.score := by
  have hnodup : (findCandidates metricsFiles modelFiles).Nodup := findCandidates_nodup hnd
  simp only [bestCandidate] at hb
  obtain ⟨t, ht⟩ := List.head?_eq_some_iff.mp hb
  have hsorted : (List.insertionSort scoreGe (findCandidates metricsFiles modelFiles)).Pairwise
      scoreGe := List.sorted_insertionSort scoreGe _
  have hperm : List.insertionSort scoreGe (findCandidates metricsFiles modelFiles) ~
      findCandidates metricsFiles modelFiles := List.perm_insertionSort scoreGe _
  rw [ht] at hsorted hperm
  have hmem : b ∈ findCandidates metricsFiles modelFiles :=
    hperm.mem_iff.mp (List.mem_cons_self b t)
  have hmax : ∀ c ∈ findCandidates metricsFiles modelFiles, c.score ≤ b.score := by
    intro c hc
    rcases List.mem_cons.mp (hperm.mem_iff.mpr hc) with rfl | hct
    · exact le_refl _
    · exact List.rel_of_pairwise_cons hsorted hct
  have hbnott : b ∉ t := (List.nodup_cons.mp (hperm.symm.nodup hnodup)).1
  have hk : List.indexOf b (findCandidates metricsFiles modelFiles) <
      (findCandidates metricsFiles modelFiles).length := List.indexOf_lt_length.mpr hmem
  refine ⟨findCandidates_sorted_by_name metricsFiles modelFiles, hmax,
    List.indexOf b (findCandidates metricsFiles modelFiles), hk, List.indexOf_get hk, ?_⟩
  intro j hj hjk
  have hxmem : (findCandidates metricsFiles modelFiles).get ⟨j, hj⟩ ∈
      findCandidates metricsFiles modelFiles := List.get_mem _ j hj
  rcases eq_or_lt_of_le (hmax _ hxmem) with heq | hlt
  · exfalso
    have hxb : (findCandidates metricsFiles modelFiles).get ⟨j, hj⟩ ≠ b := by
      intro hxeq
      have hfin : (⟨j, hj⟩ : Fin (findCandidates metricsFiles modelFiles).length) =
          ⟨List.indexOf b (findCandidates metricsFiles modelFiles), hk⟩ :=
        hnodup.get_inj_iff.mp (by rw [List.indexOf_get hk, hxeq])
      have : j = List.indexOf b (findCandidates metricsFiles modelFiles) :=
        congrArg Fin.val hfin
      omega
    have hchain : [(findCandidates metricsFiles modelFiles).get ⟨j, hj⟩, b] <+
        findCandidates metricsFiles modelFiles := by
      have := pair_get_sublist (findCandidates metricsFiles modelFiles) j
        (List.indexOf b (findCandidates metricsFiles modelFiles)) hjk hk
      rwa [List.indexOf_get hk] at this
    have hge : scoreGe ((findCandidates metricsFiles modelFiles).get ⟨j, hj⟩) b := by
      unfold scoreGe
      rw [heq]
    have hstable := List.pair_sublist_insertionSort hge hchain
    rw [ht] at hstable
    rcases List.sublist_cons_iff.mp hstable with hsub | ⟨r, hr, _⟩
    · exact hbnott (hsub.subset (by simp))
    · refine hxb ?_
      have hh := congrArg List.head? hr
      simpa using hh
  · exact hlt

theorem promote_model_no_candidates_witness :
    promoteModel [("a.json", [])] ["b.joblib"]
      ⟨some "old.joblib", some "old.json"⟩ =
      (⟨some "old.joblib", some "old.json"⟩, .error .noPromotableArtifact) :=
  promote_model_no_candidates [("a.json", [])] ["b.joblib"]
    ⟨some "old.joblib", some "old.json"⟩ (by decide)

/-- Metrics directory listing used to witness the promotion-choice theorem:
two candidates with equal `pr_auc`. -/
def tieMetricsFiles : List (String × Metrics) :=
  [("b.json", [("pr_auc", Json.num 1)]), ("a.json", [("pr_auc", Json.num 1)])]

/-- Models directory listing used to witness the promotion-choice theorem. -/
def tieModelFiles : List String := ["a.joblib", "b.joblib"]

theorem promote_picks_first_highest_witness :
    (findCandidates tieMetricsFiles tieModelFiles).Pairwise
      (fun a c => a.metricsPath.data ≤ c.metricsPath.data) ∧
    (∀ c ∈ findCandidates tieMetricsFiles tieModelFiles,
      c.score ≤ (Candidate.mk "a.joblib" "a.json" 1 "pr_auc").score) ∧
    ∃ k, ∃ hk : k < (findCandidates tieMetricsFiles tieModelFiles).length,
      (findCandidates tieMetricsFiles tieModelFiles).get ⟨k, hk⟩ =
        Candidate.mk "a.joblib" "a.json" 1 "pr_auc" ∧
      ∀ j, ∀ hj : j < (findCandidates tieMetricsFiles tieModelFiles).length, j < k →
        ((findCandidates tieMetricsFiles tieModelFiles).get ⟨j, hj⟩).score <
          (Candidate.mk "a.joblib" "a.json" 1 "pr_auc").score :=
  promote_picks_first_highest tieMetricsFiles tieModelFiles (by decide)
    (Candidate.mk "a.joblib" "a.json" 1 "pr_auc") (by decide)

/-- The dict returned by `_evaluate` in `training/train_baseline.py` and
`training/train_candidate.py` (both build exactly these keys). -/
def evaluateMetricsObj (prAuc rocAuc : ℚ) (cm rep curve : Json) : Metrics :=
  [("pr_auc", .num prAuc), ("roc_auc", .num rocAuc), ("confusion_matrix", cm),
   ("classification_report", rep), ("pr_curve_sample", curve)]

/-- The `meta` dict dumped as the metrics JSON file by `train_baseline`
(`model_type = "logistic_regression"`) and by `train_candidate`
(`model_type = "hist_gradient_boosting"`): the `_evaluate` result sits under
the top-level key `"metrics"`. -/
def trainMetaObj (modelType artifact : String) (trainRows testRows : ℚ)
    (churnTrain churnTest : ℚ) (metrics : Metrics) : Metrics :=
  [("model_type", .str modelType), ("artifact", .str artifact),
   ("train_rows", .num trainRows), ("test_rows", .num testRows),
   ("churn_rate_train", .num churnTrain), ("churn_rate_test", .num churnTest),
   ("metrics", .obj metrics)]

/-- C6: on every metrics JSON file written by `train_baseline` or
`train_candidate`, `_score_from_metrics` returns `("unknown", -1.0)`, because
the recognised metric keys sit only nested under the top-level `"metrics"`
key (where `_score_from_metrics`, applied to that nested object instead,
would find `pr_auc`). -/
theorem score_from_trainer_meta_is_unknown (modelType artifact : String)
    (trainRows testRows churnTrain churnTest prAuc rocAuc : ℚ)
    (cm rep curve : Json) :
    scoreFromMetrics (trainMetaObj modelType artifact trainRows testRows
      churnTrain churnTest (evaluateMetricsObj prAuc rocAuc cm rep curve)) =
      ("unknown", -1) ∧
    scoreFromMetrics (evaluateMetricsObj prAuc rocAuc cm rep curve) =
      ("pr_auc", prAuc) := by
  constructor
  · rfl
  · rfl

end Promote

namespace Split

/-- Python `int(x)` on a float: truncation toward zero. -/
def pyInt (x : ℚ) : Int := if 0 ≤ x then ⌊x⌋ else -⌊-x⌋

/-- The rows surviving `pd.to_datetime(..., errors="coerce")` plus
`dropna(subset=["as_of_date"])`: a row is a parsed `as_of_date` (a day
number, `none` for an unparseable date) with its remaining payload. -/
def parsedRows {α : Type} (rows : List (Option Int × α)) : List (Int × α) :=
  rows.filterMap (fun r => r.1.map (fun dt => (dt, r.2)))

/-- `sorted(d["as_of_date"].dt.date.unique().tolist())`: the distinct parsed
dates in ascending order. -/
def sortedDates {α : Type} (rows : List (Option Int × α)) : List Int :=
  List.insertionSort (· ≤ ·) ((parsedRows rows).map (fun r => r.1)).dedup

/-- `cut_at = max(1, min(int(len(dates) * (1 - test_size)), len(dates) - 1))`. -/
def cutAt {α : Type} (rows : List (Option Int × α)) (testSize : ℚ) : Int :=
  max 1 (min (pyInt (((sortedDates rows).length : ℚ) * (1 - testSize)))
    (((sortedDates rows).length : Int) - 1))

/-- `cutoff_date = dates[cut_at - 1]`. -/
def cutoffDate {α : Type} (rows : List (Option Int × α)) (testSize : ℚ) : Int :=
  (sortedDates rows).getD (cutAt rows testSize - 1).toNat 0

/-- Python slice `l[:k]` (a negative `k` counts from the end). -/
def pySliceTo {β : Type} (l : List β) (k : Int) : List β :=
  if 0 ≤ k then l.take k.toNat else l.take (l.length - (-k).toNat)

/-- Python slice `l[k:]` (a negative `k` counts from the end). -/
def pySliceFrom {β : Type} (l : List β) (k : Int) : List β :=
  if 0 ≤ k then l.drop k.toNat else l.drop (l.length - (-k).toNat)

/-- Row order used by `d.sort_values("as_of_date")` on the fallback path. -/
def dateLe {α : Type} (a b : Int × α) : Prop := a.1 ≤ b.1

instance {α : Type} : DecidableRel (@dateLe α) := fun a b =>
  inferInstanceAs (Decidable (a.1 ≤ b.1))

/-- `_time_split(df, test_size)` from `training/train_baseline.py` (the same
function appears verbatim in `training/train_candidate.py`): with fewer than
5 distinct parsed dates, a positional cut of the date-sorted rows at
`int(len(d) * (1 - test_size))`; otherwise a calendar cut at
`cutoff_date`, rows with date ≤ cutoff to train and the rest to test. -/
def timeSplit {α : Type} (rows : List (Option Int × α)) (testSize : ℚ) :
    List (Int × α) × List (Int × α) :=
  let d := parsedRows rows
  if (sortedDates rows).length < 5 then
    let dsorted := List.insertionSort dateLe d
    let cutoffIdx := pyInt ((d.length : ℚ) * (1 - testSize))
    (pySliceTo dsorted cutoffIdx, pySliceFrom dsorted cutoffIdx)
  else
    (d.filter (fun r => decide (r.1 ≤ cutoffDate rows testSize)),
     d.filter (fun r => decide (cutoffDate rows testSize < r.1)))

theorem sortedDates_pairwise {α : Type} (rows : List (Option Int × α)) :
    (sortedDates rows).Pairwise (· ≤ ·) :=
  List.sorted_insertionSort (· ≤ ·) _

theorem sortedDates_nodup {α : Type} (rows : List (Option Int × α)) :
    (sortedDates rows).Nodup :=
  (List.perm_insertionSort (· ≤ ·) _).symm.nodup (List.nodup_dedup _)

theorem mem_sortedDates {α : Type} {rows : List (Option Int × α)} {x : Int} :
    x ∈ sortedDates rows ↔ x ∈ (parsedRows rows).map (fun r => r.1) := by
  unfold sortedDates
  rw [List.mem_insertionSort, List.mem_dedup]

theorem sortedDates_get_lt {α : Type} (rows : List (Option Int × α))
    {i j : ℕ} (hi : i < (sortedDates rows).length)
    (hj : j < (sortedDates rows).length) (hij : i < j) :
    (sortedDates rows).get ⟨i, hi⟩ < (sortedDates rows).get ⟨j, hj⟩ := by
  have hle : (sortedDates rows).get ⟨i, hi⟩ ≤ (sortedDates rows).get ⟨j, hj⟩ :=
    List.Sorted.rel_get_of_lt (sortedDates_pairwise rows) hij
  rcases lt_or_eq_of_le hle with h | h
  · exact h
  · exfalso
    have hfin : (⟨i, hi⟩ : Fin (sortedDates rows).length) = ⟨j, hj⟩ :=
      (sortedDates_nodup rows).get_inj_iff.mp h
    have : i = j := congrArg Fin.val hfin
    omega

theorem date_has_row {α : Type} {rows : List (Option Int × α)} {x : Int}
    (hx : x ∈ sortedDates rows) : ∃ r ∈ parsedRows rows, r.1 = x := by
  rcases List.mem_map.mp (mem_sortedDates.mp hx) with ⟨r, hr, hrx⟩
  exact ⟨r, hr, hrx⟩

theorem cutAt_bounds {α : Type} (rows : List (Option Int × α)) (testSize : ℚ)
    (h2 : 2 ≤ (sortedDates rows).length) :
    1 ≤ cutAt rows testSize ∧
      cutAt rows testSize ≤ ((sortedDates rows).length : Int) - 1 := by
  unfold cutAt
  constructor
  · exact le_max_left _ _
  · apply max_le
    · omega
    · exact min_le_right _ _

theorem cutoffDate_eq_get {α : Type} (rows : List (Option Int × α)) (testSize : ℚ)
    (h2 : 2 ≤ (sortedDates rows).length) :
    ∃ hidx : (cutAt rows testSize - 1).toNat < (sortedDates rows).length,
      cutoffDate rows testSize =
        (sortedDates rows).get ⟨(cutAt rows testSize - 1).toNat, hidx⟩ := by
  obtain ⟨hlo, hhi⟩ := cutAt_bounds rows testSize h2
  have hidx : (cutAt rows testSize - 1).toNat < (sortedDates rows).length := by
    omega
  refine ⟨hidx, ?_⟩
  unfold cutoffDate
  rw [List.getD_eq_getElem?_getD, List.getElem?_eq_getElem hidx]
  rfl

theorem time_split_primary {α : Type} (rows : List (Option Int × α)) (ts : ℚ)
    (h5 : 5 ≤ (sortedDates rows).length) :
    (∀ r ∈ (timeSplit rows ts).1, r.1 ≤ cutoffDate rows ts) ∧
    (∀ r ∈ (timeSplit rows ts).2, cutoffDate rows ts < r.1) ∧
    (timeSplit rows ts).1 ≠ [] ∧ (timeSplit rows ts).2 ≠ [] := by
  have hnot : ¬ (sortedDates rows).length < 5 := not_lt.mpr h5
  have h2 : 2 ≤ (sortedDates rows).length := by omega
  obtain ⟨hidx, hcut⟩ := cutoffDate_eq_get rows ts h2
  obtain ⟨hlo, hhi⟩ := cutAt_bounds rows ts h2
  simp only [timeSplit, if_neg hnot]
  refine ⟨?_, ?_, ?_, ?_⟩
  · intro r hr
    exact of_decide_eq_true (List.mem_filter.mp hr).2
  · intro r hr
    exact of_decide_eq_true (List.mem_filter.mp hr).2
  · have h0 : 0 < (sortedDates rows).length := by omega
    obtain ⟨r, hr, hrx⟩ := date_has_row (List.get_mem (sortedDates rows) 0 h0)
    have hle : r.1 ≤ cutoffDate rows ts := by
      rw [hcut, hrx]
      exact List.Sorted.rel_get_of_le (sortedDates_pairwise rows)
        (Fin.mk_le_mk.mpr (Nat.zero_le _))
    exact List.ne_nil_of_mem (List.mem_filter.mpr ⟨hr, decide_eq_true hle⟩)
  · have hlast : (sortedDates rows).length - 1 < (sortedDates rows).length := by omega
    obtain ⟨r, hr, hrx⟩ :=
      date_has_row (List.get_mem (sortedDates rows) ((sortedDates rows).length - 1) hlast)
    have hlt : cutoffDate rows ts < r.1 := by
      rw [hcut, hrx]
      exact sortedDates_get_lt rows hidx hlast (by omega)
    exact List.ne_nil_of_mem (List.mem_filter.mpr ⟨hr, decide_eq_true hlt⟩)

/-- C1: on a dataset with at least 5 distinct parseable dates, `_time_split`
is strictly temporally ordered for every test fraction: every train record's
date is ≤ the cutoff date, every evaluation record's date is strictly
greater, both subsets are non-empty (so the train maximum date is below the
evaluation minimum date: every train date is strictly below every evaluation
date), and no record lands in both subsets. -/
theorem time_split_strict_temporal {α : Type} (rows : List (Option Int × α)) (ts : ℚ)
    (h5 : 5 ≤ (sortedDates rows).length) :
    (∀ r ∈ (timeSplit rows ts).1, r.1 ≤ cutoffDate rows ts) ∧
    (∀ r ∈ (timeSplit rows ts).2, cutoffDate rows ts < r.1) ∧
    (timeSplit rows ts).1 ≠ [] ∧ (timeSplit rows ts).2 ≠ [] ∧
    (∀ a ∈ (timeSplit rows ts).1, ∀ b ∈ (timeSplit rows ts).2, a.1 < b.1) ∧
    (∀ r, ¬(r ∈ (timeSplit rows ts).1 ∧ r ∈ (timeSplit rows ts).2)) := by
  obtain ⟨htr, hte, hne1, hne2⟩ := time_split_primary rows ts h5
  refine ⟨htr, hte, hne1, hne2, ?_, ?_⟩
  · intro a ha b hb
    exact lt_of_le_of_lt (htr a ha) (hte b hb)
  · intro r hr
    exact absurd (hte r hr.2) (not_lt.mpr (htr r hr.1))

/-- Concrete five-day dataset used to witness the split theorems. -/
def fiveDayRows : List (Option Int × ℕ) :=
  [(some 1, 0), (some 2, 1), (some 3, 2), (some 4, 3), (some 5, 4)]

theorem time_split_strict_temporal_witness :
    (∀ r ∈ (timeSplit fiveDayRows (1/5)).1, r.1 ≤ cutoffDate fiveDayRows (1/5)) ∧
    (∀ r ∈ (timeSplit fiveDayRows (1/5)).2, cutoffDate fiveDayRows (1/5) < r.1) ∧
    (timeSplit fiveDayRows (1/5)).1 ≠ [] ∧ (timeSplit fiveDayRows (1/5)).2 ≠ [] ∧
    (∀ a ∈ (timeSplit fiveDayRows (1/5)).1, ∀ b ∈ (timeSplit fiveDayRows (1/5)).2,
      a.1 < b.1) ∧
    (∀ r, ¬(r ∈ (timeSplit fiveDayRows (1/5)).1 ∧ r ∈ (timeSplit fiveDayRows (1/5)).2)) :=
  time_split_strict_temporal fiveDayRows (1/5) (by decide)

/-- Two rows on two distinct dates: the C7 counterexample dataset. -/
def twoDayRows : List (Option Int × ℕ) := [(some 0, 0), (some 1, 1)]

/-- C7 counterexample: a dataset with 2 distinct parseable dates and
test_fraction 3/5 (which is strictly between 0 and 1) takes the fallback
path and gets an EMPTY train subset, since `int(2 * (1 - 3/5)) = 0`. -/
theorem time_split_small_train_empty :
    2 ≤ (sortedDates twoDayRows).length ∧
    (0 : ℚ) < 3/5 ∧ (3 : ℚ)/5 < 1 ∧
    (timeSplit twoDayRows (3/5)).1 = [] := by
  have hd : sortedDates twoDayRows = [0, 1] := by decide
  have hp : parsedRows twoDayRows = [(0, 0), (1, 1)] := by decide
  refine ⟨by decide, by norm_num, by norm_num, ?_⟩
  have hk : pyInt (((parsedRows twoDayRows).length : ℚ) * (1 - 3/5)) = 0 := by
    rw [hp]
    norm_num [pyInt, Rat.floor_def]
  simp only [timeSplit, hd, List.length_cons, List.length_nil]
  rw [if_pos (by norm_num)]
  rw [hk]
  simp [pySliceTo]

/-- C7 (amended): with at least 2 distinct parseable dates and
0 < test_fraction < 1, the evaluation subset is always non-empty and the
TRAIN subset is non-empty whenever there are at least 5 distinct dates; on
the fallback path (< 5 distinct dates) the train subset is non-empty exactly
when the positional cut `int(row_count * (1 - test_fraction))` is at least 1,
which can fail (see the counterexample), so the original claim does not hold
there. -/
theorem time_split_nonempty_amended {α : Type} (rows : List (Option Int × α))
    (ts : ℚ) (h2 : 2 ≤ (sortedDates rows).length) (h0 : 0 < ts) (h1 : ts < 1) :
    (timeSplit rows ts).2 ≠ [] ∧
    (5 ≤ (sortedDates rows).length → (timeSplit rows ts).1 ≠ []) ∧
    ((sortedDates rows).length < 5 →
      ((timeSplit rows ts).1 ≠ [] ↔
        1 ≤ pyInt (((parsedRows rows).length : ℚ) * (1 - ts)))) := by
  have hm : (sortedDates rows).length ≤ (parsedRows rows).length := by
    calc (sortedDates rows).length
        = ((parsedRows rows).map (fun r => r.1)).dedup.length :=
          List.length_insertionSort _ _
      _ ≤ ((parsedRows rows).map (fun r => r.1)).length :=
          (List.dedup_sublist _).length_le
      _ = (parsedRows rows).length := List.length_map _ _
  have hmpos : 0 < (parsedRows rows).length := by omega
  have hknn : (0 : ℚ) ≤ ((parsedRows rows).length : ℚ) * (1 - ts) := by
    have : (0 : ℚ) ≤ ((parsedRows rows).length : ℚ) := by positivity
    nlinarith
  have hkfloor : pyInt (((parsedRows rows).length : ℚ) * (1 - ts)) =
      ⌊((parsedRows rows).length : ℚ) * (1 - ts)⌋ := by
    unfold pyInt
    rw [if_pos hknn]
  have hk0 : 0 ≤ pyInt (((parsedRows rows).length : ℚ) * (1 - ts)) := by
    rw [hkfloor]
    exact Int.floor_nonneg.mpr hknn
  have hkm : pyInt (((parsedRows rows).length : ℚ) * (1 - ts)) <
      ((parsedRows rows).length : Int) := by
    rw [hkfloor]
    apply Int.floor_lt.mpr
    push_cast
    have : (0 : ℚ) < ((parsedRows rows).length : ℚ) := by exact_mod_cast hmpos
    nlinarith
  rcases lt_or_le ((sortedDates rows).length) 5 with hlt5 | hge5
  · have hif : (sortedDates rows).length < 5 := hlt5
    refine ⟨?_, fun h => absurd h (by omega), fun _ => ?_⟩
    · simp only [timeSplit, if_pos hif]
      rw [pySliceFrom, if_pos hk0]
      intro hcon
      have hlen := congrArg List.length hcon
      rw [List.length_drop, List.length_insertionSort] at hlen
      simp only [List.length_nil] at hlen
      omega
    · simp only [timeSplit, if_pos hif]
      rw [pySliceTo, if_pos hk0]
      constructor
      · intro hne
        by_contra hcon
        apply hne
        have : (pyInt (((parsedRows rows).length : ℚ) * (1 - ts))).toNat = 0 := by omega
        rw [this, List.take_zero]
      · intro hge hcon
        have hlen := congrArg List.length hcon
        rw [List.length_take, List.length_insertionSort] at hlen
        simp only [List.length_nil] at hlen
        omega
  · obtain ⟨-, -, hne1, hne2⟩ := time_split_primary rows ts hge5
    exact ⟨hne2, fun _ => hne1, fun h => absurd h (by omega)⟩

theorem time_split_nonempty_amended_witness :
    (timeSplit twoDayRows (3/5)).2 ≠ [] ∧
    (5 ≤ (sortedDates twoDayRows).length → (timeSplit twoDayRows (3/5)).1 ≠ []) ∧
    ((sortedDates twoDayRows).length < 5 →
      ((timeSplit twoDayRows (3/5)).1 ≠ [] ↔
        1 ≤ pyInt (((parsedRows twoDayRows).length : ℚ) * (1 - 3/5)))) :=
  time_split_nonempty_amended twoDayRows (3/5) (by decide) (by norm_num) (by norm_num)

end Split

namespace BatchScore

/-- Error kinds of `_pick_as_of_date` (`inference/batch_score.py`): a
requested date absent from the feature pool carries the available min/max
range; a pool with no parseable date at all cannot resolve anything. -/
inductive PickError where
  | dateNotFound (availableMin availableMax : Int)
  | noParseableDates
deriving Repr, DecidableEq

/-- Python `min` over a non-empty list (pandas `Series.min()` skips `NaT`). -/
def minD (l : List Int) : Int :=
  match l with
  | [] => 0
  | x :: xs => xs.foldl min x

/-- Python `max` over a non-empty list (pandas `Series.max()` skips `NaT`). -/
def maxD (l : List Int) : Int :=
  match l with
  | [] => 0
  | x :: xs => xs.foldl max x

/-- `_pick_as_of_date(df, as_of_date)` from `inference/batch_score.py`. The
pool is the list of per-row parsed dates (`none` = `NaT` after
`errors="coerce"`); `asOf` is the optional explicit date (already parsed).
An explicit date must be among the parsed dates, else the error carries the
pool's min and max parseable dates; without an explicit date the maximum
parseable date is chosen. (With zero parseable dates the source cannot
produce a date either — the pandas min/max are `NaT` — modelled as the
`noParseableDates` error.) -/
def pickAsOfDate (rows : List (Option Int)) (asOf : Option Int) : Except PickError Int :=
  match rows.filterMap id, asOf with
  | [], _ => .error .noParseableDates
  | p :: ps, some target =>
    if target ∈ p :: ps then .ok target
    else .error (.dateNotFound (minD (p :: ps)) (maxD (p :: ps)))
  | p :: ps, none => .ok (maxD (p :: ps))

theorem le_foldl_max : ∀ (xs : List Int) (x : Int),
    x ≤ xs.foldl max x ∧ ∀ y ∈ xs, y ≤ xs.foldl max x
  | [], x => ⟨le_refl x, by simp⟩
  | z :: zs, x => by
    obtain ⟨h1, h2⟩ := le_foldl_max zs (max x z)
    refine ⟨le_trans (le_max_left x z) h1, ?_⟩
    intro y hy
    rcases List.mem_cons.mp hy with rfl | hyz
    · exact le_trans (le_max_right x y) h1
    · exact h2 y hyz

theorem foldl_max_mem : ∀ (xs : List Int) (x : Int),
    xs.foldl max x = x ∨ xs.foldl max x ∈ xs
  | [], x => Or.inl rfl
  | z :: zs, x => by
    rcases foldl_max_mem zs (max x z) with h | h
    · rcases max_cases x z with ⟨hm, -⟩ | ⟨hm, -⟩
      · left
        rw [List.foldl_cons, h, hm]
      · right
        rw [List.foldl_cons, h, hm]
        exact List.mem_cons_self z zs
    · right
      exact List.mem_cons_of_mem z h

theorem foldl_min_mem : ∀ (xs : List Int) (x : Int),
    xs.foldl min x = x ∨ xs.foldl min x ∈ xs
  | [], x => Or.inl rfl
  | z :: zs, x => by
    rcases foldl_min_mem zs (min x z) with h | h
    · rcases min_cases x z with ⟨hm, -⟩ | ⟨hm, -⟩
      · left
        rw [List.foldl_cons, h, hm]
      · right
        rw [List.foldl_cons, h, hm]
        exact List.mem_cons_self z zs
    · right
      exact List.mem_cons_of_mem z h

theorem foldl_min_le : ∀ (xs : List Int) (x : Int),
    xs.foldl min x ≤ x ∧ ∀ y ∈ xs, xs.foldl min x ≤ y
  | [], x => ⟨le_refl x, by simp⟩
  | z :: zs, x => by
    obtain ⟨h1, h2⟩ := foldl_min_le zs (min x z)
    refine ⟨le_trans h1 (min_le_left x z), ?_⟩
    intro y hy
    rcases List.mem_cons.mp hy with rfl | hyz
    · exact le_trans h1 (min_le_right x y)
    · exact h2 y hyz

theorem maxD_spec {p : Int} {ps : List Int} :
    maxD (p :: ps) ∈ p :: ps ∧ ∀ y ∈ p :: ps, y ≤ maxD (p :: ps) := by
  have hm : maxD (p :: ps) = ps.foldl max p := rfl
  rw [hm]
  obtain ⟨h1, h2⟩ := le_foldl_max ps p
  constructor
  · rcases foldl_max_mem ps p with h | h
    · rw [h]
      exact List.mem_cons_self p ps
    · exact List.mem_cons_of_mem p h
  · intro y hy
    rcases List.mem_cons.mp hy with rfl | hyy
    · exact h1
    · exact h2 y hyy

theorem minD_le {p : Int} {ps : List Int} : ∀ y ∈ p :: ps, minD (p :: ps) ≤ y := by
  have hm : minD (p :: ps) = ps.foldl min p := rfl
  rw [hm]
  obtain ⟨h1, h2⟩ := foldl_min_le ps p
  intro y hy
  rcases List.mem_cons.mp hy with rfl | hyy
  · exact h1
  · exact h2 y hyy

/-- C8: date resolution in the batch scorer. With at least one parseable
date in the pool: omitting `as_of_date` resolves to the maximum parseable
date; an explicit date among the parsed dates resolves to itself; an
explicit date not in the pool fails with the date-not-found error carrying
the pool's minimum and maximum parseable dates. -/
theorem pick_as_of_date_resolution (rows : List (Option Int)) (p : Int)
    (ps : List Int) (hp : rows.filterMap id = p :: ps) :
    (pickAsOfDate rows none = .ok (maxD (p :: ps)) ∧
      maxD (p :: ps) ∈ p :: ps ∧ ∀ y ∈ p :: ps, y ≤ maxD (p :: ps)) ∧
    (∀ t ∈ p :: ps, pickAsOfDate rows (some t) = .ok t) ∧
    (∀ t, t ∉ p :: ps →
      pickAsOfDate rows (some t) =
        .error (.dateNotFound (minD (p :: ps)) (maxD (p :: ps))) ∧
      minD (p :: ps) ∈ p :: ps ∧ ∀ y ∈ p :: ps, minD (p :: ps) ≤ y) := by
  refine ⟨⟨?_, maxD_spec⟩, ?_, ?_⟩
  · unfold pickAsOfDate
    rw [hp]
  · intro t ht
    unfold pickAsOfDate
    rw [hp]
    simp only [if_pos ht]
  · intro t ht
    refine ⟨?_, ?_, minD_le⟩
    · unfold pickAsOfDate
      rw [hp]
      simp only [if_neg ht]
    · have hm : minD (p :: ps) = ps.foldl min p := rfl
      rw [hm]
      rcases foldl_min_mem ps p with h | h
      · rw [h]
        exact List.mem_cons_self p ps
      · exact List.mem_cons_of_mem p h

theorem pick_as_of_date_resolution_witness :
    (pickAsOfDate [some 3, none, some 7, some 5] none = .ok (maxD [3, 7, 5]) ∧
      maxD [3, 7, 5] ∈ [3, 7, 5] ∧ ∀ y ∈ [3, 7, 5], y ≤ maxD [3, 7, 5]) ∧
    (∀ t ∈ [3, 7, 5], pickAsOfDate [some 3, none, some 7, some 5] (some t) = .ok t) ∧
    (∀ t, t ∉ ([3, 7, 5] : List Int) →
      pickAsOfDate [some 3, none, some 7, some 5] (some t) =
        .error (.dateNotFound (minD [3, 7, 5]) (maxD [3, 7, 5])) ∧
      minD [3, 7, 5] ∈ [3, 7, 5] ∧ ∀ y ∈ [3, 7, 5], minD [3, 7, 5] ≤ y) :=
  pick_as_of_date_resolution [some 3, none, some 7, some 5] 3 [7, 5] (by decide)

end BatchScore

end ChurnMlops
